import Mathlib

/-!
Verification of the servo/string-cache interning engine against its design
specification. The visible repository material is the C boundary header
(`capi/include/string_cache.h`) and the C smoke test (`capi/ctest/test.c`);
the interning engine behind the header is modelled here from the design
specification, section by section: the interning table (spec section 4.1),
the atom value operations (spec section 4.2), the inline small-string
representation (spec section 2), and the error taxonomy (spec section 7).

Bytes are modelled as natural numbers; a byte coming from a C `char` buffer
carries the bound `b < 256` as a hypothesis where it matters. Machine
integers are modelled as `Nat`; the 64-bit `unique_id` field of
`scache_atom` is modelled as the `uniqueId` encoding of the atom's tagged
representation.
-/

namespace StringCache

/-- Modelled from the spec: error taxonomy of section 7. `invalidEncoding`
is raised when constructor input is not valid UTF-8; `allocationFailure`
when the underlying store cannot grow (never raised in this model, which
does not model memory exhaustion). -/
inductive Err where
  | invalidEncoding
  | allocationFailure
deriving DecidableEq, Repr

/-- Modelled from the spec: one step of the standard UTF-8 acceptor
(RFC 3629 byte ranges). State `0` is the accepting start state; the other
states record how many continuation bytes are still expected and which
restricted range, if any, applies to the next byte. Returns `none` on an
ill-formed byte. -/
def utf8Step (st b : Nat) : Option Nat :=
  match st with
  | 0 =>
    if b ≤ 0x7F then some 0
    else if 0xC2 ≤ b ∧ b ≤ 0xDF then some 1
    else if b = 0xE0 then some 2
    else if (0xE1 ≤ b ∧ b ≤ 0xEC) ∨ b = 0xEE ∨ b = 0xEF then some 3
    else if b = 0xED then some 4
    else if b = 0xF0 then some 5
    else if 0xF1 ≤ b ∧ b ≤ 0xF3 then some 6
    else if b = 0xF4 then some 7
    else none
  | 1 => if 0x80 ≤ b ∧ b ≤ 0xBF then some 0 else none
  | 2 => if 0xA0 ≤ b ∧ b ≤ 0xBF then some 1 else none
  | 3 => if 0x80 ≤ b ∧ b ≤ 0xBF then some 1 else none
  | 4 => if 0x80 ≤ b ∧ b ≤ 0x9F then some 1 else none
  | 5 => if 0x90 ≤ b ∧ b ≤ 0xBF then some 3 else none
  | 6 => if 0x80 ≤ b ∧ b ≤ 0xBF then some 3 else none
  | 7 => if 0x80 ≤ b ∧ b ≤ 0x8F then some 3 else none
  | _ => none

/-- Modelled from the spec: UTF-8 validation of constructor input
(spec sections 4.2 and 7). A byte sequence is valid when the acceptor
consumes it entirely and ends in the accepting state. -/
def validUtf8 (bs : List Nat) : Bool :=
  match bs.foldl (fun ost b => ost.bind (fun st => utf8Step st b)) (some 0) with
  | some 0 => true
  | _ => false

/-- Modelled from the spec: an Entry of the interning table (spec
section 3): the canonical owned bytes plus the count of live Atom handles
referencing it. The precomputed `hash` field is an optimization over the
bytes and is not modelled separately. -/
structure Entry where
  bytes : List Nat
  refcount : Nat
deriving DecidableEq, Repr

/-- Modelled from the spec: the interning table (spec section 4.1): an
association of entry ids to Entries, plus the next id to hand out. Ids of
entries simultaneously present are pairwise distinct. -/
structure Table where
  entries : List (Nat × Entry)
  nextId : Nat
deriving DecidableEq, Repr

/-- The empty interning table, the initial state of the engine. -/
def emptyTable : Table := ⟨[], 0⟩

/-- Look up the entry with the given id. -/
def findEntry (t : Table) (id : Nat) : Option Entry :=
  (t.entries.find? (fun p => p.1 == id)).map (fun p => p.2)

/-- Look up an entry by content (the insert-or-find probe of `intern`). -/
def findByBytes (t : Table) (bs : List Nat) : Option (Nat × Entry) :=
  t.entries.find? (fun p => p.2.bytes == bs)

/-- Increment the refcount of the entry with the given id, leaving every
other entry untouched (the refcount increment of spec section 4.1). -/
def bumpEntry (id : Nat) (p : Nat × Entry) : Nat × Entry :=
  if p.1 = id then (p.1, ⟨p.2.bytes, p.2.refcount + 1⟩) else p

/-- The table after incrementing the refcount of entry `id`. -/
def bump (t : Table) (id : Nat) : Table :=
  ⟨t.entries.map (bumpEntry id), t.nextId⟩

/-- The per-entry action of `release`: the entry with the given id has its
refcount decremented and is dropped when the count reaches zero; every
other entry is kept unchanged. -/
def releaseEntry (id : Nat) (p : Nat × Entry) : Option (Nat × Entry) :=
  if p.1 = id then
    if p.2.refcount ≤ 1 then none
    else some (p.1, ⟨p.2.bytes, p.2.refcount - 1⟩)
  else some p

/-- Modelled from the spec: `release(EntryRef)` of spec section 4.1:
decrement the refcount of the entry with the given id; at zero the Entry
is removed from the table. -/
def release (t : Table) (id : Nat) : Table :=
  ⟨t.entries.filterMap (releaseEntry id), t.nextId⟩

/-- Modelled from the spec: `intern(bytes)` of spec section 4.1. If an
Entry with identical bytes exists, its refcount is incremented and its id
returned; otherwise a new Entry with refcount 1 is inserted under an id
distinct from every id currently present. -/
def intern (t : Table) (bs : List Nat) : Table × Nat :=
  match findByBytes t bs with
  | some p => (bump t p.1, p.1)
  | none => (⟨(t.nextId, ⟨bs, 1⟩) :: t.entries, t.nextId + 1⟩, t.nextId)

/-- Modelled from the spec: the Atom value (spec section 3): either an
inline payload of at most `inlineThreshold` bytes, or a handle owning a
reference into the interning table. -/
inductive Atom where
  | Inline (bytes : List Nat)
  | Interned (id : Nat)
deriving DecidableEq, Repr

/-- Modelled from the spec: the inline small-string threshold, seven bytes
for an eight-byte-aligned value (spec section 2). -/
def inlineThreshold : Nat := 7

/-- Base-256 value of a byte list, least significant byte first: the raw
bits of an inline payload. -/
def bytesVal : List Nat → Nat
  | [] => 0
  | b :: rest => b + 256 * bytesVal rest

/-- The packing of an inline payload into the data bits of the 64-bit
value: length in the low three bits, bytes above. -/
def pack (bs : List Nat) : Nat := bs.length + 8 * bytesVal bs

/-- The 64-bit `unique_id` field of the C `scache_atom` struct
(string_cache.h lines 25-27), as a function of the atom's tagged
representation: a tag bit distinguishes inline payloads (odd values,
carrying the packed bytes) from interned handles (even values, carrying
the entry id). -/
def uniqueId : Atom → Nat
  | .Inline bs => 2 * pack bs + 1
  | .Interned id => 2 * id

/-- Modelled from the spec: `scache_atom_from_buffer` (string_cache.h
lines 52-55, spec section 4.2): validate UTF-8, failing with
`invalidEncoding` before any table mutation; build an inline atom when the
length is at most the threshold, bypassing the table; otherwise delegate
to `intern`. Returns the table after the operation together with the
result. -/
def scache_atom_from_buffer (t : Table) (bs : List Nat) : Table × Except Err Atom :=
  if validUtf8 bs = true then
    if bs.length ≤ inlineThreshold then (t, Except.ok (Atom.Inline bs))
    else
      let r := intern t bs
      (r.1, Except.ok (Atom.Interned r.2))
  else (t, Except.error Err.invalidEncoding)

/-- The bytes a C string designates: everything before the first NUL. -/
def cStrContent (cs : List Nat) : List Nat := cs.takeWhile (fun b => b != 0)

/-- The length `strlen` reports for a C string: the number of bytes before
the first NUL. -/
def strlen (cs : List Nat) : Nat := (cStrContent cs).length

/-- Modelled from the spec: `scache_atom_from_c_str` (string_cache.h
lines 57-60): construct from the bytes before the NUL terminator. -/
def scache_atom_from_c_str (t : Table) (cs : List Nat) : Table × Except Err Atom :=
  scache_atom_from_buffer t (cStrContent cs)

/-- Modelled from the spec: `scache_atom_data` (string_cache.h lines
29-37): the bytes of the string, out of the atom's own storage for inline
atoms and out of the Entry's owned buffer for interned atoms. `none`
models the dangling pointer of a destroyed atom. -/
def scache_atom_data (t : Table) : Atom → Option (List Nat)
  | .Inline bs => some bs
  | .Interned id => (findEntry t id).map Entry.bytes

/-- Modelled from the spec: `scache_atom_len` (string_cache.h lines
39-40): the byte length of the string. -/
def scache_atom_len (t : Table) : Atom → Option Nat
  | .Inline bs => some bs.length
  | .Interned id => (findEntry t id).map (fun e => e.bytes.length)

/-- Modelled from the spec: `scache_atom_clone` (string_cache.h lines
42-45, spec section 4.2): a bit copy for inline atoms, a refcount
increment for interned atoms; never touches the string bytes. -/
def scache_atom_clone (t : Table) : Atom → Table × Atom
  | .Inline bs => (t, Atom.Inline bs)
  | .Interned id => (bump t id, Atom.Interned id)

/-- Modelled from the spec: `scache_atom_destroy` (string_cache.h lines
47-50, spec section 4.2): a no-op on the table for inline atoms, a
`release` for interned atoms. -/
def scache_atom_destroy (t : Table) : Atom → Table
  | .Inline _ => t
  | .Interned id => release t id

/-- `n`-fold cloning of the same atom (the fan-out of spec section 4.3). -/
def cloneN (t : Table) (a : Atom) : Nat → Table
  | 0 => t
  | n + 1 => cloneN (scache_atom_clone t a).1 a n

/-- `n`-fold destruction of handles to the same atom value. -/
def destroyN (t : Table) (a : Atom) : Nat → Table
  | 0 => t
  | n + 1 => destroyN (scache_atom_destroy t a) a n

/-- The reference-accounting scenario of spec section 8: `n` clones of a
live interned atom followed by `n + 1` destroys (the original plus the
`n` clones). -/
def reclaimScenario (t : Table) (id : Nat) (n : Nat) : Table :=
  destroyN (cloneN t (Atom.Interned id) n) (Atom.Interned id) (n + 1)

/-- Tables reachable from the empty table through the boundary
operations. -/
inductive Reachable : Table → Prop where
  | empty : Reachable emptyTable
  | fromBuffer (t : Table) (bs : List Nat) :
      Reachable t → Reachable (scache_atom_from_buffer t bs).1
  | fromCStr (t : Table) (cs : List Nat) :
      Reachable t → Reachable (scache_atom_from_c_str t cs).1
  | clone (t : Table) (a : Atom) :
      Reachable t → Reachable (scache_atom_clone t a).1
  | destroy (t : Table) (a : Atom) :
      Reachable t → Reachable (scache_atom_destroy t a)

/-- Well-formedness of a table state: ids of present entries are pairwise
distinct and below `nextId`, every present entry has a positive refcount
(spec section 3 invariant), and no two present entries hold the same
bytes (the hash-consing invariant of spec section 3). -/
structure WF (t : Table) : Prop where
  nodupIds : (t.entries.map Prod.fst).Nodup
  idsLt : ∀ p ∈ t.entries, p.1 < t.nextId
  refPos : ∀ p ∈ t.entries, 0 < p.2.refcount
  uniqueBytes : ∀ p ∈ t.entries, ∀ q ∈ t.entries, p.2.bytes = q.2.bytes → p.1 = q.1

/-- Well-formedness of an atom value: an inline payload respects the
threshold and holds bytes (values below 256), as every atom built by the
constructors does. -/
def AtomWF : Atom → Prop
  | .Inline bs => bs.length ≤ inlineThreshold ∧ ∀ b ∈ bs, b < 256
  | .Interned _ => True

/-- A concrete eight-byte ASCII input (the letters of a sample tag name),
long enough to be interned rather than inlined. -/
def sampleBytes : List Nat := [104, 101, 108, 108, 111, 120, 121, 122]

/-- The table holding exactly the sample entry: the state after one buffer
construction from the empty table. -/
def sampleTable : Table := (scache_atom_from_buffer emptyTable sampleBytes).1

/-- The sample input as a NUL-terminated C string. -/
def sampleCStr : List Nat := sampleBytes ++ [0]

@[simp]
lemma bumpEntry_fst (id : Nat) (p : Nat × Entry) : (bumpEntry id p).1 = p.1 := by
  unfold bumpEntry; split <;> rfl

@[simp]
lemma bumpEntry_bytes (id : Nat) (p : Nat × Entry) : (bumpEntry id p).2.bytes = p.2.bytes := by
  unfold bumpEntry; split <;> rfl

lemma releaseEntry_some (id : Nat) (p q : Nat × Entry) (h : releaseEntry id p = some q) :
    q.1 = p.1 ∧ q.2.bytes = p.2.bytes ∧
      (q.2 = p.2 ∨ (1 < p.2.refcount ∧ q.2.refcount = p.2.refcount - 1)) := by
  unfold releaseEntry at h
  split at h
  · split at h
    · exact absurd h (by simp)
    · cases h
      refine ⟨rfl, rfl, Or.inr ⟨by omega, rfl⟩⟩
  · cases h
    exact ⟨rfl, rfl, Or.inl rfl⟩

lemma find?_fst_bump (l : List (Nat × Entry)) (id j : Nat) :
    (l.map (bumpEntry id)).find? (fun p => p.1 == j)
      = (l.find? (fun p => p.1 == j)).map (bumpEntry id) := by
  rw [List.find?_map]
  have hpred : ((fun p : Nat × Entry => p.1 == j) ∘ bumpEntry id)
      = fun p => p.1 == j := funext fun p => by simp [Function.comp]
  rw [hpred]

lemma findEntry_bump_self (t : Table) (id : Nat) :
    findEntry (bump t id) id = (findEntry t id).map (fun e => ⟨e.bytes, e.refcount + 1⟩) := by
  unfold findEntry
  simp only [bump]
  rw [find?_fst_bump]
  cases hfind : t.entries.find? (fun p => p.1 == id) with
  | none => simp
  | some p =>
    have hp : p.1 = id := by simpa using List.find?_some hfind
    simp [bumpEntry, hp]

lemma data_bump (t : Table) (id : Nat) (a : Atom) :
    scache_atom_data (bump t id) a = scache_atom_data t a := by
  cases a with
  | Inline bs => rfl
  | Interned j =>
    simp only [scache_atom_data]
    unfold findEntry
    simp only [bump]
    rw [find?_fst_bump]
    cases t.entries.find? (fun p => p.1 == j) <;> simp

lemma len_bump (t : Table) (id : Nat) (a : Atom) :
    scache_atom_len (bump t id) a = scache_atom_len t a := by
  cases a with
  | Inline bs => rfl
  | Interned j =>
    simp only [scache_atom_len]
    unfold findEntry
    simp only [bump]
    rw [find?_fst_bump]
    cases t.entries.find? (fun p => p.1 == j) <;> simp

lemma findByBytes_bump (t : Table) (id : Nat) (bs : List Nat) :
    findByBytes (bump t id) bs = (findByBytes t bs).map (bumpEntry id) := by
  unfold findByBytes
  simp only [bump]
  rw [List.find?_map]
  have hpred : ((fun p : Nat × Entry => p.2.bytes == bs) ∘ bumpEntry id)
      = fun p => p.2.bytes == bs := funext fun p => by simp [Function.comp]
  rw [hpred]

lemma findByBytes_some (t : Table) (bs : List Nat) (p : Nat × Entry)
    (h : findByBytes t bs = some p) : p ∈ t.entries ∧ p.2.bytes = bs := by
  refine ⟨List.mem_of_find?_eq_some h, ?_⟩
  have := List.find?_some h
  simpa using this

lemma findByBytes_none (t : Table) (bs : List Nat) (h : findByBytes t bs = none) :
    ∀ p ∈ t.entries, p.2.bytes ≠ bs := by
  intro p hp
  have := List.find?_eq_none.mp h p hp
  simpa using this

lemma intern_hit (t : Table) (bs : List Nat) (p : Nat × Entry)
    (h : findByBytes t bs = some p) : intern t bs = (bump t p.1, p.1) := by
  unfold intern; rw [h]

lemma intern_miss (t : Table) (bs : List Nat) (h : findByBytes t bs = none) :
    intern t bs = (⟨(t.nextId, ⟨bs, 1⟩) :: t.entries, t.nextId + 1⟩, t.nextId) := by
  unfold intern; rw [h]

lemma intern_stable (t : Table) (bs : List Nat) :
    (intern (intern t bs).1 bs).2 = (intern t bs).2 := by
  cases hfind : findByBytes t bs with
  | some p =>
    rw [intern_hit t bs p hfind]
    cases hfind2 : findByBytes (bump t p.1) bs with
    | some q =>
      rw [intern_hit _ bs q hfind2]
      have : (findByBytes (bump t p.1) bs).map Prod.fst = some p.1 := by
        rw [findByBytes_bump, hfind]; simp
      rw [hfind2] at this
      simpa using this
    | none =>
      exfalso
      have := findByBytes_none _ bs hfind2 (bumpEntry p.1 p)
      rw [findByBytes_bump, hfind] at hfind2
      simp at hfind2
  | none =>
    rw [intern_miss t bs hfind]
    have : findByBytes ⟨(t.nextId, ⟨bs, 1⟩) :: t.entries, t.nextId + 1⟩ bs
        = some (t.nextId, ⟨bs, 1⟩) := by
      unfold findByBytes
      simp [List.find?_cons_of_pos]
    rw [intern_hit _ bs _ this]

lemma find?_fst_of_mem_nodup (l : List (Nat × Entry)) (p : Nat × Entry)
    (hnd : (l.map Prod.fst).Nodup) (h : p ∈ l) :
    l.find? (fun q => q.1 == p.1) = some p := by
  induction l with
  | nil => cases h
  | cons q rest ih =>
    rcases List.mem_cons.mp h with hq | hrest
    · subst hq
      exact List.find?_cons_of_pos _ (by simp)
    · have hnd2 : q.1 ∉ rest.map Prod.fst ∧ (rest.map Prod.fst).Nodup := by
        rw [List.map_cons, List.nodup_cons] at hnd; exact hnd
      cases hqp : (q.1 == p.1) with
      | true =>
        exfalso
        have hq1 : q.1 = p.1 := by simpa using hqp
        exact hnd2.1 (hq1 ▸ List.mem_map_of_mem Prod.fst hrest)
      | false =>
        rw [List.find?_cons_of_neg _ (by simp_all)]
        exact ih hnd2.2 hrest

lemma findEntry_of_mem_nodup (t : Table) (id : Nat) (e : Entry)
    (hnd : (t.entries.map Prod.fst).Nodup) (h : (id, e) ∈ t.entries) :
    findEntry t id = some e := by
  unfold findEntry
  rw [find?_fst_of_mem_nodup t.entries (id, e) hnd h]
  rfl

lemma mem_of_findEntry (t : Table) (id : Nat) (e : Entry) (h : findEntry t id = some e) :
    (id, e) ∈ t.entries := by
  unfold findEntry at h
  cases hfind : t.entries.find? (fun p => p.1 == id) with
  | none => rw [hfind] at h; cases h
  | some p =>
    rw [hfind] at h
    have hp1 : p.1 = id := by simpa using List.find?_some hfind
    have hp2 : p.2 = e := by simpa using h
    have hmem := List.mem_of_find?_eq_some hfind
    have hpe : (id, e) = p := by rw [← hp1, ← hp2]
    rw [hpe]
    exact hmem

lemma findEntry_none (t : Table) (id : Nat) :
    findEntry t id = none ↔ ∀ p ∈ t.entries, p.1 ≠ id := by
  unfold findEntry
  rw [Option.map_eq_none', List.find?_eq_none]
  constructor
  · intro h p hp
    have := h p hp
    simpa using this
  · intro h p hp
    simpa using h p hp

lemma filterMap_release_no_id (l : List (Nat × Entry)) (id : Nat)
    (h : ∀ p ∈ l, p.1 ≠ id) : l.filterMap (releaseEntry id) = l := by
  induction l with
  | nil => rfl
  | cons p rest ih =>
    rw [List.filterMap_cons]
    have hp : releaseEntry id p = some p := by
      unfold releaseEntry
      rw [if_neg (h p (List.mem_cons_self p rest))]
    rw [hp, ih (fun q hq => h q (List.mem_cons_of_mem p hq))]

lemma find?_release_aux (l : List (Nat × Entry)) (id : Nat) (e : Entry)
    (hnd : (l.map Prod.fst).Nodup)
    (h : (l.find? (fun p => p.1 == id)).map (fun p => p.2) = some e) :
    ((l.filterMap (releaseEntry id)).find? (fun p => p.1 == id)).map (fun p => p.2)
      = if e.refcount ≤ 1 then none else some ⟨e.bytes, e.refcount - 1⟩ := by
  induction l with
  | nil => cases h
  | cons p rest ih =>
    have hnd2 : p.1 ∉ rest.map Prod.fst ∧ (rest.map Prod.fst).Nodup := by
      rw [List.map_cons, List.nodup_cons] at hnd; exact hnd
    cases hp : (p.1 == id) with
    | true =>
      have hp1 : p.1 = id := by simpa using hp
      rw [List.find?_cons_of_pos _ (by simpa using hp)] at h
      have he : p.2 = e := by simpa using h
      rw [List.filterMap_cons]
      have hrest : ∀ q ∈ rest, q.1 ≠ id := by
        intro q hq hqid
        apply hnd2.1
        rw [hp1, ← hqid]
        exact List.mem_map_of_mem Prod.fst hq
      by_cases hrc : p.2.refcount ≤ 1
      · rw [show releaseEntry id p = none by unfold releaseEntry; rw [if_pos hp1, if_pos hrc]]
        rw [filterMap_release_no_id rest id hrest]
        rw [List.find?_eq_none.mpr (fun q hq => by simpa using hrest q hq)]
        rw [if_pos (he ▸ hrc)]
        rfl
      · rw [show releaseEntry id p = some (p.1, ⟨p.2.bytes, p.2.refcount - 1⟩) by
          unfold releaseEntry; rw [if_pos hp1, if_neg hrc]]
        rw [List.find?_cons_of_pos _ (by simpa using hp1)]
        rw [if_neg (he ▸ hrc), ← he]
        rfl
    | false =>
      rw [List.find?_cons_of_neg _ (by simp_all)] at h
      rw [List.filterMap_cons]
      have hpne : p.1 ≠ id := by simpa using hp
      rw [show releaseEntry id p = some p by unfold releaseEntry; rw [if_neg hpne]]
      rw [List.find?_cons_of_neg _ (by simp_all)]
      exact ih hnd2.2 h

lemma findEntry_release_self (t : Table) (id : Nat) (e : Entry)
    (hnd : (t.entries.map Prod.fst).Nodup) (h : findEntry t id = some e) :
    findEntry (release t id) id
      = if e.refcount ≤ 1 then none else some ⟨e.bytes, e.refcount - 1⟩ := by
  unfold findEntry at h ⊢
  simp only [release]
  exact find?_release_aux t.entries id e hnd h

lemma release_absent (t : Table) (id : Nat) (h : findEntry t id = none) :
    release t id = t := by
  unfold release
  rw [filterMap_release_no_id t.entries id ((findEntry_none t id).mp h)]

lemma release_mem (t : Table) (id : Nat) (q : Nat × Entry)
    (hq : q ∈ (release t id).entries) :
    ∃ p ∈ t.entries, q.1 = p.1 ∧ q.2.bytes = p.2.bytes ∧
      (q.2 = p.2 ∨ (1 < p.2.refcount ∧ q.2.refcount = p.2.refcount - 1)) := by
  simp only [release, List.mem_filterMap] at hq
  obtain ⟨p, hp, hrel⟩ := hq
  obtain ⟨h1, h2, h3⟩ := releaseEntry_some id p q hrel
  exact ⟨p, hp, h1, h2, h3⟩

lemma bump_mem (t : Table) (id : Nat) (q : Nat × Entry)
    (hq : q ∈ (bump t id).entries) :
    ∃ p ∈ t.entries, q.1 = p.1 ∧ q.2.bytes = p.2.bytes ∧
      p.2.refcount ≤ q.2.refcount := by
  simp only [bump, List.mem_map] at hq
  obtain ⟨p, hp, hrel⟩ := hq
  refine ⟨p, hp, ?_, ?_, ?_⟩ <;> rw [← hrel]
  · simp
  · simp
  · unfold bumpEntry; split <;> simp

lemma release_fst_sublist (l : List (Nat × Entry)) (id : Nat) :
    ((l.filterMap (releaseEntry id)).map Prod.fst).Sublist (l.map Prod.fst) := by
  induction l with
  | nil => simp
  | cons p rest ih =>
    rw [List.filterMap_cons]
    cases hrel : releaseEntry id p with
    | none => exact List.Sublist.cons p.1 (by simpa using ih)
    | some q =>
      have hq1 : q.1 = p.1 := (releaseEntry_some id p q hrel).1
      simpa [hq1] using List.Sublist.cons₂ p.1 ih

lemma bump_fst_map (t : Table) (id : Nat) :
    (bump t id).entries.map Prod.fst = t.entries.map Prod.fst := by
  simp only [bump, List.map_map]
  have hcomp : Prod.fst ∘ bumpEntry id = Prod.fst := funext fun p => by simp
  rw [hcomp]

lemma wf_bump (t : Table) (id : Nat) (hwf : WF t) : WF (bump t id) := by
  refine ⟨?_, ?_, ?_, ?_⟩
  · rw [bump_fst_map]; exact hwf.nodupIds
  · intro p hp
    obtain ⟨q, hq, h1, _, _⟩ := bump_mem t id p hp
    rw [h1]
    exact hwf.idsLt q hq
  · intro p hp
    obtain ⟨q, hq, _, _, h3⟩ := bump_mem t id p hp
    exact lt_of_lt_of_le (hwf.refPos q hq) h3
  · intro p hp q hq hbytes
    obtain ⟨p', hp', hp1, hp2, _⟩ := bump_mem t id p hp
    obtain ⟨q', hq', hq1, hq2, _⟩ := bump_mem t id q hq
    rw [hp1, hq1]
    exact hwf.uniqueBytes p' hp' q' hq' (by rw [← hp2, ← hq2, hbytes])

lemma wf_release (t : Table) (id : Nat) (hwf : WF t) : WF (release t id) := by
  refine ⟨?_, ?_, ?_, ?_⟩
  · exact List.Nodup.sublist (release_fst_sublist t.entries id) hwf.nodupIds
  · intro p hp
    obtain ⟨q, hq, h1, _, _⟩ := release_mem t id p hp
    rw [h1]
    exact hwf.idsLt q hq
  · intro p hp
    obtain ⟨q, hq, _, _, h3⟩ := release_mem t id p hp
    rcases h3 with h3 | ⟨h4, h5⟩
    · rw [h3]; exact hwf.refPos q hq
    · omega
  · intro p hp q hq hbytes
    obtain ⟨p', hp', hp1, hp2, _⟩ := release_mem t id p hp
    obtain ⟨q', hq', hq1, hq2, _⟩ := release_mem t id q hq
    rw [hp1, hq1]
    exact hwf.uniqueBytes p' hp' q' hq' (by rw [← hp2, ← hq2, hbytes])

lemma wf_intern (t : Table) (bs : List Nat) (hwf : WF t) : WF (intern t bs).1 := by
  cases hfind : findByBytes t bs with
  | some p =>
    rw [intern_hit t bs p hfind]
    exact wf_bump t p.1 hwf
  | none =>
    rw [intern_miss t bs hfind]
    have hmiss := findByBytes_none t bs hfind
    refine ⟨?_, ?_, ?_, ?_⟩
    · simp only [List.map_cons]
      rw [List.nodup_cons]
      constructor
      · intro hmem
        obtain ⟨p, hp, hp1⟩ := List.mem_map.mp hmem
        exact absurd hp1 (Nat.ne_of_lt (hwf.idsLt p hp))
      · exact hwf.nodupIds
    · intro p hp
      rcases List.mem_cons.mp hp with h | h
      · rw [h]; simp
      · exact Nat.lt_succ_of_lt (hwf.idsLt p h)
    · intro p hp
      rcases List.mem_cons.mp hp with h | h
      · rw [h]; simp
      · exact hwf.refPos p h
    · intro p hp q hq hbytes
      rcases List.mem_cons.mp hp with h1 | h1 <;> rcases List.mem_cons.mp hq with h2 | h2
      · rw [h1, h2]
      · exfalso
        exact hmiss q h2 (by rw [← hbytes, h1])
      · exfalso
        exact hmiss p h1 (by rw [hbytes, h2])
      · exact hwf.uniqueBytes p h1 q h2 hbytes

lemma wf_from_buffer (t : Table) (bs : List Nat) (hwf : WF t) :
    WF (scache_atom_from_buffer t bs).1 := by
  unfold scache_atom_from_buffer
  split
  · split
    · exact hwf
    · exact wf_intern t bs hwf
  · exact hwf

lemma wf_empty : WF emptyTable := by
  refine ⟨?_, ?_, ?_, ?_⟩ <;> simp [emptyTable]

lemma reachable_wf (t : Table) (h : Reachable t) : WF t := by
  induction h with
  | empty => exact wf_empty
  | fromBuffer t bs _ ih => exact wf_from_buffer t bs ih
  | fromCStr t cs _ ih => exact wf_from_buffer t (cStrContent cs) ih
  | clone t a _ ih =>
    cases a with
    | Inline bs => exact ih
    | Interned id => exact wf_bump t id ih
  | destroy t a _ ih =>
    cases a with
    | Inline bs => exact ih
    | Interned id => exact wf_release t id ih

lemma intern_findEntry (t : Table) (bs : List Nat) (hwf : WF t) :
    ∃ rc, 0 < rc ∧ findEntry (intern t bs).1 (intern t bs).2 = some ⟨bs, rc⟩ := by
  cases hfind : findByBytes t bs with
  | some p =>
    rw [intern_hit t bs p hfind]
    obtain ⟨hmem, hbytes⟩ := findByBytes_some t bs p hfind
    have hself : findEntry t p.1 = some p.2 := by
      unfold findEntry
      rw [find?_fst_of_mem_nodup t.entries p hwf.nodupIds hmem]
      rfl
    refine ⟨p.2.refcount + 1, by omega, ?_⟩
    rw [findEntry_bump_self, hself]
    simp [hbytes]
  | none =>
    rw [intern_miss t bs hfind]
    refine ⟨1, by omega, ?_⟩
    unfold findEntry
    rw [List.find?_cons_of_pos _ (by simp)]
    rfl

lemma bytesVal_inj (bs1 : List Nat) : ∀ bs2 : List Nat, bs1.length = bs2.length →
    (∀ b ∈ bs1, b < 256) → (∀ b ∈ bs2, b < 256) →
    bytesVal bs1 = bytesVal bs2 → bs1 = bs2 := by
  induction bs1 with
  | nil =>
    intro bs2 hlen _ _ _
    cases bs2 with
    | nil => rfl
    | cons c rest2 => simp at hlen
  | cons b rest ih =>
    intro bs2 hlen h1 h2 hv
    cases bs2 with
    | nil => simp at hlen
    | cons c rest2 =>
      simp only [bytesVal] at hv
      have hb : b < 256 := h1 b (by simp)
      have hc : c < 256 := h2 c (by simp)
      have hbc : b = c ∧ bytesVal rest = bytesVal rest2 := by omega
      have hrest : rest = rest2 := ih rest2 (by simpa using hlen)
        (fun x hx => h1 x (by simp [hx])) (fun x hx => h2 x (by simp [hx])) hbc.2
      rw [hbc.1, hrest]

lemma pack_inj (bs1 bs2 : List Nat) (h1l : bs1.length ≤ 7) (h2l : bs2.length ≤ 7)
    (h1 : ∀ b ∈ bs1, b < 256) (h2 : ∀ b ∈ bs2, b < 256)
    (h : pack bs1 = pack bs2) : bs1 = bs2 := by
  unfold pack at h
  have hsplit : bs1.length = bs2.length ∧ bytesVal bs1 = bytesVal bs2 := by omega
  exact bytesVal_inj bs1 bs2 hsplit.1 h1 h2 hsplit.2

lemma from_buffer_invalid (t : Table) (bs : List Nat) (h : validUtf8 bs = false) :
    scache_atom_from_buffer t bs = (t, Except.error Err.invalidEncoding) := by
  unfold scache_atom_from_buffer
  simp [h]

lemma from_buffer_inline (t : Table) (bs : List Nat)
    (hv : validUtf8 bs = true) (hlen : bs.length ≤ inlineThreshold) :
    scache_atom_from_buffer t bs = (t, Except.ok (Atom.Inline bs)) := by
  unfold scache_atom_from_buffer
  rw [if_pos hv, if_pos hlen]

lemma from_buffer_intern (t : Table) (bs : List Nat)
    (hv : validUtf8 bs = true) (hlen : ¬ bs.length ≤ inlineThreshold) :
    scache_atom_from_buffer t bs
      = ((intern t bs).1, Except.ok (Atom.Interned (intern t bs).2)) := by
  unfold scache_atom_from_buffer
  rw [if_pos hv, if_neg hlen]

lemma from_buffer_ok (t t1 : Table) (bs : List Nat) (a : Atom)
    (h : scache_atom_from_buffer t bs = (t1, Except.ok a)) :
    validUtf8 bs = true ∧
    ((bs.length ≤ inlineThreshold ∧ t1 = t ∧ a = Atom.Inline bs) ∨
     (inlineThreshold < bs.length ∧ t1 = (intern t bs).1
        ∧ a = Atom.Interned (intern t bs).2)) := by
  by_cases hv : validUtf8 bs = true
  · refine ⟨hv, ?_⟩
    by_cases hlen : bs.length ≤ inlineThreshold
    · rw [from_buffer_inline t bs hv hlen] at h
      simp only [Prod.mk.injEq, Except.ok.injEq] at h
      exact Or.inl ⟨hlen, h.1.symm, h.2.symm⟩
    · rw [from_buffer_intern t bs hv hlen] at h
      simp only [Prod.mk.injEq, Except.ok.injEq] at h
      exact Or.inr ⟨by omega, h.1.symm, h.2.symm⟩
  · exfalso
    rw [from_buffer_invalid t bs (by simpa using hv)] at h
    simp at h

lemma from_buffer_twice (t : Table) (s : List Nat) (t1 t2 : Table) (a1 a2 : Atom)
    (hwf : WF t)
    (h1 : scache_atom_from_buffer t s = (t1, Except.ok a1))
    (h2 : scache_atom_from_buffer t1 s = (t2, Except.ok a2)) :
    uniqueId a1 = uniqueId a2 ∧
    scache_atom_data t2 a1 = some s ∧ scache_atom_data t2 a2 = some s ∧
    scache_atom_len t2 a1 = some s.length ∧ scache_atom_len t2 a2 = some s.length := by
  obtain ⟨hv, hcase1⟩ := from_buffer_ok t t1 s a1 h1
  obtain ⟨_, hcase2⟩ := from_buffer_ok t1 t2 s a2 h2
  rcases hcase1 with ⟨hlen, ht1, ha1⟩ | ⟨hlen, ht1, ha1⟩
  · rcases hcase2 with ⟨_, ht2, ha2⟩ | ⟨hlen2, _, _⟩
    · subst ht1 ht2 ha1 ha2
      exact ⟨rfl, rfl, rfl, rfl, rfl⟩
    · omega
  · rcases hcase2 with ⟨hlen2, _, _⟩ | ⟨_, ht2, ha2⟩
    · omega
    · subst ht1 ht2 ha1 ha2
      have hid : (intern (intern t s).1 s).2 = (intern t s).2 := intern_stable t s
      obtain ⟨rc, _, hfind⟩ :=
        intern_findEntry (intern t s).1 s (wf_intern t s hwf)
      refine ⟨?_, ?_, ?_, ?_, ?_⟩
      · simp only [uniqueId, hid]
      · simp only [scache_atom_data, ← hid, hfind]; rfl
      · simp only [scache_atom_data, hfind]; rfl
      · simp only [scache_atom_len, ← hid, hfind]; rfl
      · simp only [scache_atom_len, hfind]; rfl

lemma take_strlen (cs : List Nat) : cs.take (strlen cs) = cStrContent cs := by
  unfold strlen cStrContent
  exact (List.prefix_iff_eq_take.mp (List.takeWhile_prefix _)).symm

lemma findEntry_cloneN (n : Nat) : ∀ (t : Table) (id : Nat) (e : Entry),
    findEntry t id = some e →
    findEntry (cloneN t (Atom.Interned id) n) id = some ⟨e.bytes, e.refcount + n⟩ := by
  induction n with
  | zero =>
    intro t id e h
    simpa using h
  | succ n ih =>
    intro t id e h
    show findEntry (cloneN (bump t id) (Atom.Interned id) n) id = _
    have hb : findEntry (bump t id) id = some ⟨e.bytes, e.refcount + 1⟩ := by
      rw [findEntry_bump_self, h]
      rfl
    rw [ih (bump t id) id ⟨e.bytes, e.refcount + 1⟩ hb]
    have harith : e.refcount + 1 + n = e.refcount + (n + 1) := by omega
    rw [show (⟨e.bytes, e.refcount + 1⟩ : Entry).refcount + n = e.refcount + 1 + n from rfl,
      harith]

lemma wf_cloneN (n : Nat) : ∀ (t : Table) (id : Nat), WF t →
    WF (cloneN t (Atom.Interned id) n) := by
  induction n with
  | zero => intro t id hwf; exact hwf
  | succ n ih =>
    intro t id hwf
    exact ih (bump t id) id (wf_bump t id hwf)

lemma cloneN_mem (n : Nat) : ∀ (t : Table) (id : Nat) (q : Nat × Entry),
    q ∈ (cloneN t (Atom.Interned id) n).entries →
    ∃ p ∈ t.entries, q.1 = p.1 ∧ q.2.bytes = p.2.bytes := by
  induction n with
  | zero =>
    intro t id q hq
    exact ⟨q, hq, rfl, rfl⟩
  | succ n ih =>
    intro t id q hq
    obtain ⟨p, hp, h1, h2⟩ := ih (bump t id) id q hq
    obtain ⟨r, hr, h3, h4⟩ := bump_mem t id p hp
    exact ⟨r, hr, h1.trans h3, h2.trans h4.1⟩

lemma destroyN_removes (k : Nat) : ∀ (t : Table) (id : Nat) (e : Entry), WF t →
    findEntry t id = some e → e.refcount = k →
    findEntry (destroyN t (Atom.Interned id) k) id = none ∧
    WF (destroyN t (Atom.Interned id) k) ∧
    (∀ q ∈ (destroyN t (Atom.Interned id) k).entries,
      ∃ p ∈ t.entries, q.1 = p.1 ∧ q.2.bytes = p.2.bytes) := by
  induction k with
  | zero =>
    intro t id e hwf h hrc
    exfalso
    have := hwf.refPos (id, e) (mem_of_findEntry t id e h)
    simp at this
    omega
  | succ k ih =>
    intro t id e hwf h hrc
    show findEntry (destroyN (release t id) (Atom.Interned id) k) id = none ∧ _ ∧ _
    by_cases hk : k = 0
    · subst hk
      have hrel : findEntry (release t id) id = none := by
        rw [findEntry_release_self t id e hwf.nodupIds h, if_pos (by omega)]
      refine ⟨hrel, wf_release t id hwf, ?_⟩
      intro q hq
      obtain ⟨p, hp, h1, h2, _⟩ := release_mem t id q hq
      exact ⟨p, hp, h1, h2⟩
    · have hrel : findEntry (release t id) id = some ⟨e.bytes, k⟩ := by
        rw [findEntry_release_self t id e hwf.nodupIds h, if_neg (by omega)]
        have : e.refcount - 1 = k := by omega
        rw [this]
      obtain ⟨hnone, hwf2, hchain⟩ :=
        ih (release t id) id ⟨e.bytes, k⟩ (wf_release t id hwf) hrel rfl
      refine ⟨hnone, hwf2, ?_⟩
      intro q hq
      obtain ⟨p, hp, h1, h2⟩ := hchain q hq
      obtain ⟨r, hr, h3, h4, _⟩ := release_mem t id p hp
      exact ⟨r, hr, h1.trans h3, h2.trans h4⟩

lemma reclaim_removes (t : Table) (id : Nat) (e : Entry) (n : Nat)
    (hwf : WF t) (h : findEntry t id = some e) (hrc : e.refcount = 1) :
    findEntry (reclaimScenario t id n) id = none ∧
    WF (reclaimScenario t id n) ∧
    (∀ q ∈ (reclaimScenario t id n).entries,
      ∃ p ∈ t.entries, q.1 = p.1 ∧ q.2.bytes = p.2.bytes) := by
  unfold reclaimScenario
  have hfind := findEntry_cloneN n t id e h
  have hwfc := wf_cloneN n t id hwf
  obtain ⟨hnone, hwf2, hchain⟩ :=
    destroyN_removes (n + 1) (cloneN t (Atom.Interned id) n) id
      ⟨e.bytes, e.refcount + n⟩ hwfc hfind (by simp; omega)
  refine ⟨hnone, hwf2, ?_⟩
  intro q hq
  obtain ⟨p, hp, h1, h2⟩ := hchain q hq
  obtain ⟨r, hr, h3, h4⟩ := cloneN_mem n t id p hp
  exact ⟨r, hr, h1.trans h3, h2.trans h4⟩

/-- C1: for every pair of content-identical byte sequences of non-inline
length, interning the first and then the second (while the first atom is
still alive) yields atoms with equal `unique_id`. -/
theorem intern_deduplicates_same_content (t : Table) (s : List Nat) (t1 t2 : Table)
    (a1 a2 : Atom) (hlen : inlineThreshold < s.length)
    (h1 : scache_atom_from_buffer t s = (t1, Except.ok a1))
    (h2 : scache_atom_from_buffer t1 s = (t2, Except.ok a2)) :
    uniqueId a1 = uniqueId a2 := by
  obtain ⟨hv, hc1⟩ := from_buffer_ok t t1 s a1 h1
  obtain ⟨_, hc2⟩ := from_buffer_ok t1 t2 s a2 h2
  rcases hc1 with ⟨h, _, _⟩ | ⟨_, ht1, ha1⟩
  · omega
  rcases hc2 with ⟨h, _, _⟩ | ⟨_, _, ha2⟩
  · omega
  subst ht1 ha1 ha2
  simp only [uniqueId, intern_stable]

theorem intern_deduplicates_same_content_witness :
    uniqueId (Atom.Interned 0) = uniqueId (Atom.Interned 0) :=
  intern_deduplicates_same_content emptyTable sampleBytes sampleTable
    ⟨[(0, ⟨sampleBytes, 2⟩)], 1⟩ (Atom.Interned 0) (Atom.Interned 0)
    (by decide) rfl rfl

/-- C3: every successfully constructed atom, inline or interned, reads
back exactly the bytes it was constructed from, and its length accessor
reports their count. -/
theorem data_len_roundtrip (t t1 : Table) (bs : List Nat) (a : Atom) (hwf : WF t)
    (h : scache_atom_from_buffer t bs = (t1, Except.ok a)) :
    scache_atom_data t1 a = some bs ∧ scache_atom_len t1 a = some bs.length := by
  obtain ⟨hv, hc⟩ := from_buffer_ok t t1 bs a h
  rcases hc with ⟨_, ht1, ha⟩ | ⟨_, ht1, ha⟩
  · subst ht1 ha
    exact ⟨rfl, rfl⟩
  · subst ht1 ha
    obtain ⟨rc, _, hfind⟩ := intern_findEntry t bs hwf
    constructor
    · simp only [scache_atom_data, hfind]; rfl
    · simp only [scache_atom_len, hfind]; rfl

theorem data_len_roundtrip_witness :
    scache_atom_data sampleTable (Atom.Interned 0) = some sampleBytes ∧
    scache_atom_len sampleTable (Atom.Interned 0) = some sampleBytes.length :=
  data_len_roundtrip emptyTable sampleTable sampleBytes (Atom.Interned 0) wf_empty rfl

/-- C4: cloning an atom yields an atom with the same `unique_id`, the same
length, and the same bytes. -/
theorem clone_preserves_identity (t : Table) (a : Atom) :
    uniqueId (scache_atom_clone t a).2 = uniqueId a ∧
    scache_atom_data (scache_atom_clone t a).1 (scache_atom_clone t a).2
      = scache_atom_data t a ∧
    scache_atom_len (scache_atom_clone t a).1 (scache_atom_clone t a).2
      = scache_atom_len t a := by
  cases a with
  | Inline bs => exact ⟨rfl, rfl, rfl⟩
  | Interned id =>
    refine ⟨rfl, ?_, ?_⟩
    · show scache_atom_data (bump t id) (Atom.Interned id) = _
      rw [data_bump]
    · show scache_atom_len (bump t id) (Atom.Interned id) = _
      rw [len_bump]

/-- C6: input that is not valid UTF-8 makes either constructor fail with
`invalidEncoding`, producing no atom and leaving the table unchanged. -/
theorem invalid_utf8_rejected (t : Table) (bs cs : List Nat)
    (h1 : validUtf8 bs = false) (h2 : validUtf8 (cStrContent cs) = false) :
    scache_atom_from_buffer t bs = (t, Except.error Err.invalidEncoding) ∧
    scache_atom_from_c_str t cs = (t, Except.error Err.invalidEncoding) :=
  ⟨from_buffer_invalid t bs h1, from_buffer_invalid t (cStrContent cs) h2⟩

theorem invalid_utf8_rejected_witness :
    scache_atom_from_buffer emptyTable [255] = (emptyTable, Except.error Err.invalidEncoding) ∧
    scache_atom_from_c_str emptyTable [255, 0] = (emptyTable, Except.error Err.invalidEncoding) :=
  invalid_utf8_rejected emptyTable [255] [255, 0] (by decide) (by decide)

/-- C8: valid input of length at most the inline threshold is built inline
with the table untouched; longer input delegates to the table `intern`;
the C-string constructor is the buffer constructor on the bytes before the
terminator. -/
theorem inline_threshold_behavior (t : Table) (bs cs : List Nat)
    (hv : validUtf8 bs = true) :
    (bs.length ≤ inlineThreshold →
      scache_atom_from_buffer t bs = (t, Except.ok (Atom.Inline bs))) ∧
    (inlineThreshold < bs.length →
      scache_atom_from_buffer t bs
        = ((intern t bs).1, Except.ok (Atom.Interned (intern t bs).2))) ∧
    scache_atom_from_c_str t cs = scache_atom_from_buffer t (cStrContent cs) := by
  refine ⟨?_, ?_, rfl⟩
  · intro h
    exact from_buffer_inline t bs hv h
  · intro h
    exact from_buffer_intern t bs hv (by omega)

theorem inline_threshold_behavior_witness :
    (([104] : List Nat).length ≤ inlineThreshold →
      scache_atom_from_buffer emptyTable [104] = (emptyTable, Except.ok (Atom.Inline [104]))) ∧
    (inlineThreshold < ([104] : List Nat).length →
      scache_atom_from_buffer emptyTable [104]
        = ((intern emptyTable [104]).1, Except.ok (Atom.Interned (intern emptyTable [104]).2))) ∧
    scache_atom_from_c_str emptyTable [104, 0]
      = scache_atom_from_buffer emptyTable (cStrContent [104, 0]) :=
  inline_threshold_behavior emptyTable [104] [104, 0] (by decide)

/-- C2: atoms constructed from distinct byte sequences while both are
alive carry distinct `unique_id` values: id equality never yields a false
positive for content equality. -/
theorem distinct_content_distinct_ids (t : Table) (s1 s2 : List Nat) (t1 t2 : Table)
    (a1 a2 : Atom) (hwf : WF t) (hne : s1 ≠ s2)
    (hb1 : ∀ b ∈ s1, b < 256) (hb2 : ∀ b ∈ s2, b < 256)
    (h1 : scache_atom_from_buffer t s1 = (t1, Except.ok a1))
    (h2 : scache_atom_from_buffer t1 s2 = (t2, Except.ok a2)) :
    uniqueId a1 ≠ uniqueId a2 := by
  obtain ⟨hv1, hc1⟩ := from_buffer_ok t t1 s1 a1 h1
  obtain ⟨hv2, hc2⟩ := from_buffer_ok t1 t2 s2 a2 h2
  rcases hc1 with ⟨hl1, ht1, ha1⟩ | ⟨hl1, ht1, ha1⟩
  · rcases hc2 with ⟨hl2, ht2, ha2⟩ | ⟨hl2, ht2, ha2⟩
    · subst ha1 ha2
      simp only [uniqueId]
      intro heq
      have hpack : pack s1 = pack s2 := by omega
      exact hne (pack_inj s1 s2 hl1 hl2 hb1 hb2 hpack)
    · subst ha1 ha2
      simp only [uniqueId]
      omega
  · rcases hc2 with ⟨hl2, ht2, ha2⟩ | ⟨hl2, ht2, ha2⟩
    · subst ha1 ha2
      simp only [uniqueId]
      omega
    · subst ht1 ha1 ha2
      obtain ⟨rc1, _, hfind1⟩ := intern_findEntry t s1 hwf
      have hmem1 : ((intern t s1).2, (⟨s1, rc1⟩ : Entry)) ∈ (intern t s1).1.entries :=
        mem_of_findEntry _ _ _ hfind1
      have hwf1 : WF (intern t s1).1 := wf_intern t s1 hwf
      cases hfind : findByBytes (intern t s1).1 s2 with
      | some p =>
        obtain ⟨hmem2, hbytes2⟩ := findByBytes_some _ s2 p hfind
        rw [intern_hit (intern t s1).1 s2 p hfind]
        simp only [uniqueId]
        intro heq
        have hid : (intern t s1).2 = p.1 := by omega
        have hfp : findEntry (intern t s1).1 p.1 = some p.2 := by
          unfold findEntry
          rw [find?_fst_of_mem_nodup _ p hwf1.nodupIds hmem2]
          rfl
        rw [← hid, hfind1] at hfp
        have : (⟨s1, rc1⟩ : Entry) = p.2 := by simpa using hfp
        apply hne
        rw [← hbytes2, ← this]
      | none =>
        rw [intern_miss (intern t s1).1 s2 hfind]
        simp only [uniqueId]
        intro heq
        have hlt : (intern t s1).2 < (intern t s1).1.nextId := hwf1.idsLt _ hmem1
        omega

theorem distinct_content_distinct_ids_witness :
    uniqueId (Atom.Interned 0) ≠ uniqueId (Atom.Inline [97]) :=
  distinct_content_distinct_ids emptyTable sampleBytes [97] sampleTable sampleTable
    (Atom.Interned 0) (Atom.Inline [97]) wf_empty (by decide) (by decide) (by decide)
    rfl rfl

/-- C7: constructing from a NUL-terminated string and from the equivalent
buffer (the same bytes with their `strlen` length) yields atoms with equal
content and equal `unique_id`. -/
theorem c_str_buffer_roundtrip (t : Table) (cs : List Nat) (t1 t2 : Table)
    (a1 a2 : Atom) (hwf : WF t)
    (h1 : scache_atom_from_c_str t cs = (t1, Except.ok a1))
    (h2 : scache_atom_from_buffer t1 (cs.take (strlen cs)) = (t2, Except.ok a2)) :
    uniqueId a1 = uniqueId a2 ∧
    scache_atom_data t2 a1 = some (cStrContent cs) ∧
    scache_atom_data t2 a2 = some (cStrContent cs) ∧
    scache_atom_len t2 a1 = some (strlen cs) ∧
    scache_atom_len t2 a2 = some (strlen cs) := by
  rw [take_strlen] at h2
  exact from_buffer_twice t (cStrContent cs) t1 t2 a1 a2 hwf h1 h2

theorem c_str_buffer_roundtrip_witness :
    uniqueId (Atom.Interned 0) = uniqueId (Atom.Interned 0) ∧
    scache_atom_data ⟨[(0, ⟨sampleBytes, 2⟩)], 1⟩ (Atom.Interned 0)
      = some (cStrContent sampleCStr) ∧
    scache_atom_data ⟨[(0, ⟨sampleBytes, 2⟩)], 1⟩ (Atom.Interned 0)
      = some (cStrContent sampleCStr) ∧
    scache_atom_len ⟨[(0, ⟨sampleBytes, 2⟩)], 1⟩ (Atom.Interned 0)
      = some (strlen sampleCStr) ∧
    scache_atom_len ⟨[(0, ⟨sampleBytes, 2⟩)], 1⟩ (Atom.Interned 0)
      = some (strlen sampleCStr) :=
  c_str_buffer_roundtrip emptyTable sampleCStr sampleTable
    ⟨[(0, ⟨sampleBytes, 2⟩)], 1⟩ (Atom.Interned 0) (Atom.Interned 0) wf_empty rfl rfl

/-- C10: the observable content of a live atom is a function of the 64-bit
`unique_id` alone: well-formed atoms with equal `unique_id` agree on their
data bytes and length in any table state. -/
theorem unique_id_determines_content (t : Table) (a b : Atom)
    (ha : AtomWF a) (hb : AtomWF b) (h : uniqueId a = uniqueId b) :
    scache_atom_data t a = scache_atom_data t b ∧
    scache_atom_len t a = scache_atom_len t b := by
  cases a with
  | Inline bs1 =>
    cases b with
    | Inline bs2 =>
      have ha2 : bs1.length ≤ inlineThreshold ∧ ∀ x ∈ bs1, x < 256 := ha
      have hb2 : bs2.length ≤ inlineThreshold ∧ ∀ x ∈ bs2, x < 256 := hb
      have hpack : pack bs1 = pack bs2 := by
        simp only [uniqueId] at h
        omega
      rw [pack_inj bs1 bs2 ha2.1 hb2.1 ha2.2 hb2.2 hpack]
      exact ⟨rfl, rfl⟩
    | Interned id =>
      exfalso
      simp only [uniqueId] at h
      omega
  | Interned id =>
    cases b with
    | Inline bs2 =>
      exfalso
      simp only [uniqueId] at h
      omega
    | Interned id2 =>
      have hid : id = id2 := by
        simp only [uniqueId] at h
        omega
      rw [hid]
      exact ⟨rfl, rfl⟩

theorem unique_id_determines_content_witness :
    scache_atom_data sampleTable (Atom.Inline [104, 105])
      = scache_atom_data sampleTable (Atom.Inline [104, 105]) ∧
    scache_atom_len sampleTable (Atom.Inline [104, 105])
      = scache_atom_len sampleTable (Atom.Inline [104, 105]) :=
  unique_id_determines_content sampleTable (Atom.Inline [104, 105])
    (Atom.Inline [104, 105]) ⟨by decide, by decide⟩ ⟨by decide, by decide⟩ rfl

/-- C5: at every reachable table state an entry is present only with a
positive refcount and at most one entry exists per byte sequence; after
`n` clones of a sole-owner atom and `n + 1` destroys the entry is removed,
and a subsequent intern of the same content creates a fresh entry with
refcount one. -/
theorem refcount_invariant_and_reclamation (t : Table) (ht : Reachable t) :
    (∀ p ∈ t.entries, 0 < p.2.refcount) ∧
    (∀ p ∈ t.entries, ∀ q ∈ t.entries, p.2.bytes = q.2.bytes → p.1 = q.1) ∧
    (∀ id e n, findEntry t id = some e → e.refcount = 1 →
      findEntry (reclaimScenario t id n) id = none ∧
      findByBytes (reclaimScenario t id n) e.bytes = none ∧
      (intern (reclaimScenario t id n) e.bytes).2 = (reclaimScenario t id n).nextId ∧
      findEntry (intern (reclaimScenario t id n) e.bytes).1
        ((intern (reclaimScenario t id n) e.bytes).2) = some ⟨e.bytes, 1⟩) := by
  have hwf := reachable_wf t ht
  refine ⟨hwf.refPos, hwf.uniqueBytes, ?_⟩
  intro id e n h hrc
  obtain ⟨hnone, hwf2, hchain⟩ := reclaim_removes t id e n hwf h hrc
  have hmem : (id, e) ∈ t.entries := mem_of_findEntry t id e h
  have hnobytes : ∀ q ∈ (reclaimScenario t id n).entries, q.2.bytes ≠ e.bytes := by
    intro q hq hbytes
    obtain ⟨p, hp, hq1, hq2⟩ := hchain q hq
    have hid : p.1 = id := by
      apply hwf.uniqueBytes p hp (id, e) hmem
      rw [← hq2]
      exact hbytes
    have hne : q.1 ≠ id := (findEntry_none _ id).mp hnone q hq
    exact hne (hq1.trans hid)
  have hfbb : findByBytes (reclaimScenario t id n) e.bytes = none := by
    unfold findByBytes
    rw [List.find?_eq_none]
    intro q hq
    simpa using hnobytes q hq
  refine ⟨hnone, hfbb, ?_, ?_⟩
  · rw [intern_miss _ _ hfbb]
  · rw [intern_miss _ _ hfbb]
    unfold findEntry
    rw [List.find?_cons_of_pos _ (by simp)]
    rfl

theorem refcount_invariant_and_reclamation_witness :
    findEntry (reclaimScenario sampleTable 0 2) 0 = none ∧
    findByBytes (reclaimScenario sampleTable 0 2) sampleBytes = none ∧
    (intern (reclaimScenario sampleTable 0 2) sampleBytes).2
      = (reclaimScenario sampleTable 0 2).nextId ∧
    findEntry (intern (reclaimScenario sampleTable 0 2) sampleBytes).1
      ((intern (reclaimScenario sampleTable 0 2) sampleBytes).2)
      = some ⟨sampleBytes, 1⟩ :=
  (refcount_invariant_and_reclamation sampleTable
    (Reachable.fromBuffer emptyTable sampleBytes Reachable.empty)).2.2
    0 ⟨sampleBytes, 1⟩ 2 rfl rfl

end StringCache
